import Mathlib

/-!
# Verification of the exquisite-corpus frequency engine

A shallow embedding, in Lean 4, of the frequency-aggregation core of the
`exquisite_corpus` package (file `exquisite_corpus/freq.py`): the
outlier-trimmed merger `merge_freqs`, the count reader
`single_count_file_to_freqs`, the tier packer `freqs_to_cBpack` and the
Jieba exporter `freqs_to_jieba`.

Python floats are modelled as rational numbers, and Python's
`round(math.log10(f) * 100)` is computed exactly over ℚ (see `cB` below);
fallible operations (raised exceptions) are modelled with `Option`.
-/

namespace ExquisiteCorpus

/-- A Python dict of token → frequency, as an association list in insertion
order (keys are unique in every dict the pipeline builds). -/
abbrev FreqDict := List (String × ℚ)

/-- Look a key up in an association list (Python `dict[key]`, as an
`Option`): the value at the first matching key. -/
def findVal : FreqDict → String → Option ℚ
  | [], _ => none
  | (w, q) :: rest, t => if w = t then some q else findVal rest t

/-- `freq_dict.get(term, 0.)`: look a token up, defaulting to 0. -/
def getFreq (d : FreqDict) (t : String) : ℚ :=
  (findVal d t).getD 0

/-- The `freqs` list built for a token in `merge_freqs`: that token's
frequency in every source dict, absent entries counted as 0. -/
def collectFreqs (ds : List FreqDict) (t : String) : List ℚ :=
  ds.map fun d => getFreq d t

/-- `freqs.sort(); inliers = freqs[1:-1]`: sort ascending, drop the first
and the last element. -/
def inliers (l : List ℚ) : List ℚ :=
  ((l.insertionSort (· ≤ ·)).drop 1).dropLast

/-- `statistics.mean` of a list of rationals (0 on the empty list; in
`merge_freqs` the call is only reached with at least `N - 2 ≥ 1`
elements, so the Python `StatisticsError` branch is unreachable). -/
def listMean (l : List ℚ) : ℚ :=
  l.sum / l.length

/-- The "figure skating average" computed for one token in `merge_freqs`:
collect the frequencies, sort, drop the min and the max, average. -/
def trimmedMean (ds : List FreqDict) (t : String) : ℚ :=
  listMean (inliers (collectFreqs ds t))

/-- The vocabulary union built at the top of `merge_freqs`
(`vocab.update(freq_dict)` over all dicts), one occurrence per token. -/
def vocab (ds : List FreqDict) : List String :=
  ((ds.map fun d => d.map Prod.fst).flatten).dedup

/-- The contents of the `merged` defaultdict after the per-token loop of
`merge_freqs` (lines 25–36 of `freq.py`): each vocabulary token whose
trimmed mean is strictly positive, paired with that mean. -/
def mergedRaw (ds : List FreqDict) : FreqDict :=
  (vocab ds).filterMap fun t =>
    if 0 < trimmedMean ds t then some (t, trimmedMean ds t) else none

/-- `total = sum(merged.values())` in `merge_freqs`. -/
def mergedTotal (ds : List FreqDict) : ℚ :=
  ((mergedRaw ds).map Prod.snd).sum

/-- `merge_freqs`: requires at least 3 source dicts (else a `ValueError`,
modelled as `none`), records each token's positive trimmed mean, and
renormalizes the recorded values to total mass 0.99. -/
def merge_freqs (ds : List FreqDict) : Option FreqDict :=
  if ds.length < 3 then none
  else
    some ((mergedRaw ds).map fun p => (p.1, p.2 / mergedTotal ds * (99 / 100)))

/-- The merged mapping as a partial function: the value `merge_freqs`
associates to a token, `none` if the merge fails or omits the token. -/
def mergeResultVal (ds : List FreqDict) (t : String) : Option ℚ :=
  (merge_freqs ds).bind fun m => findVal m t

/-! ## Basic lemmas about the merge -/

theorem getFreq_eq_zero_of_not_mem {d : FreqDict} {t : String}
    (h : t ∉ d.map Prod.fst) : getFreq d t = 0 := by
  induction d with
  | nil => rfl
  | cons p rest ih =>
    obtain ⟨w, q⟩ := p
    simp only [List.map_cons, List.mem_cons, not_or] at h
    simp only [getFreq, findVal]
    rw [if_neg fun he => h.1 he.symm]
    exact ih h.2

theorem inliers_subset (l : List ℚ) : inliers l ⊆ l := by
  intro x hx
  have h1 : x ∈ (l.insertionSort (· ≤ ·)).drop 1 :=
    List.dropLast_subset _ hx
  have h2 : x ∈ l.insertionSort (· ≤ ·) := List.drop_subset _ _ h1
  exact (List.perm_insertionSort _ l).subset h2

theorem listMean_eq_zero {l : List ℚ} (h : ∀ x ∈ l, x = 0) :
    listMean l = 0 := by
  simp [listMean, List.sum_eq_zero h]

theorem trimmedMean_eq_zero_of_not_mem_vocab {ds : List FreqDict} {t : String}
    (h : t ∉ vocab ds) : trimmedMean ds t = 0 := by
  apply listMean_eq_zero
  intro x hx
  have hx' : x ∈ collectFreqs ds t := inliers_subset _ hx
  simp only [collectFreqs, List.mem_map] at hx'
  obtain ⟨d, hd, rfl⟩ := hx'
  apply getFreq_eq_zero_of_not_mem
  intro hmem
  apply h
  simp only [vocab, List.mem_dedup, List.mem_flatten]
  exact ⟨d.map Prod.fst, List.mem_map_of_mem _ hd, hmem⟩

theorem mem_vocab_of_trimmedMean_pos {ds : List FreqDict} {t : String}
    (h : 0 < trimmedMean ds t) : t ∈ vocab ds := by
  by_contra hc
  rw [trimmedMean_eq_zero_of_not_mem_vocab hc] at h
  exact lt_irrefl 0 h

theorem mem_mergedRaw_iff {ds : List FreqDict} {t : String} {q : ℚ} :
    (t, q) ∈ mergedRaw ds ↔ 0 < trimmedMean ds t ∧ q = trimmedMean ds t := by
  simp only [mergedRaw, List.mem_filterMap]
  constructor
  · rintro ⟨s, _, hf⟩
    by_cases hs : 0 < trimmedMean ds s
    · simp only [if_pos hs, Option.some.injEq, Prod.mk.injEq] at hf
      obtain ⟨rfl, rfl⟩ := hf
      exact ⟨hs, rfl⟩
    · simp [if_neg hs] at hf
  · rintro ⟨hpos, rfl⟩
    exact ⟨t, mem_vocab_of_trimmedMean_pos hpos, by simp [if_pos hpos]⟩

/-- `findVal` over a key-preserving `filterMap` of a token list. -/
theorem findVal_filterMap (m : String → ℚ) (v : List String) (t : String) :
    findVal (v.filterMap fun s => if 0 < m s then some (s, m s) else none) t
      = if t ∈ v ∧ 0 < m t then some (m t) else none := by
  induction v with
  | nil => simp [findVal]
  | cons a v ih =>
    by_cases ha : 0 < m a
    · rw [List.filterMap_cons]
      simp only [if_pos ha]
      by_cases hat : a = t
      · subst hat
        simp [findVal, ha]
      · simp only [findVal, if_neg hat, ih, List.mem_cons]
        refine if_congr ?_ rfl rfl
        constructor
        · exact fun ⟨h1, h2⟩ => ⟨Or.inr h1, h2⟩
        · rintro ⟨h1 | h1, h2⟩
          · exact absurd h1.symm hat
          · exact ⟨h1, h2⟩
    · rw [List.filterMap_cons]
      simp only [if_neg ha, ih, List.mem_cons]
      by_cases hat : a = t
      · subst hat
        simp [ha]
      · refine if_congr ?_ rfl rfl
        constructor
        · exact fun ⟨h1, h2⟩ => ⟨Or.inr h1, h2⟩
        · rintro ⟨h1 | h1, h2⟩
          · exact absurd h1.symm hat
          · exact ⟨h1, h2⟩

theorem findVal_mergedRaw (ds : List FreqDict) (t : String) :
    findVal (mergedRaw ds) t
      = if 0 < trimmedMean ds t then some (trimmedMean ds t) else none := by
  rw [mergedRaw]
  have := findVal_filterMap (trimmedMean ds) (vocab ds) t
  simp only at this
  rw [this]
  by_cases h : 0 < trimmedMean ds t
  · rw [if_pos ⟨mem_vocab_of_trimmedMean_pos h, h⟩, if_pos h]
  · rw [if_neg (fun hc => h hc.2), if_neg h]

theorem findVal_map_value (g : ℚ → ℚ) (d : FreqDict) (t : String) :
    findVal (d.map fun p => (p.1, g p.2)) t = (findVal d t).map g := by
  induction d with
  | nil => rfl
  | cons p rest ih =>
    obtain ⟨w, q⟩ := p
    by_cases h : w = t
    · simp [findVal, h]
    · simp [findVal, h, ih]

end ExquisiteCorpus

namespace ExquisiteCorpus

/-! ## Permutation invariance infrastructure -/

theorem perm_flatten {α : Type*} {l₁ l₂ : List (List α)} (h : l₁.Perm l₂) :
    l₁.flatten.Perm l₂.flatten := by
  induction h with
  | nil => exact List.Perm.refl _
  | cons x _ ih => simpa using ih.append_left x
  | swap x y l =>
    simp only [List.flatten_cons]
    rw [← List.append_assoc, ← List.append_assoc]
    exact List.perm_append_comm.append_right _
  | trans _ _ ih1 ih2 => exact ih1.trans ih2

theorem insertionSort_eq_of_perm {l₁ l₂ : List ℚ} (h : l₁.Perm l₂) :
    l₁.insertionSort (· ≤ ·) = l₂.insertionSort (· ≤ ·) :=
  List.eq_of_perm_of_sorted
    ((List.perm_insertionSort _ _).trans (h.trans (List.perm_insertionSort _ _).symm))
    (List.sorted_insertionSort _ _) (List.sorted_insertionSort _ _)

theorem trimmedMean_perm {ds' ds : List FreqDict} (h : ds'.Perm ds) (t : String) :
    trimmedMean ds' t = trimmedMean ds t := by
  unfold trimmedMean inliers collectFreqs
  rw [insertionSort_eq_of_perm (h.map fun d => getFreq d t)]

theorem vocab_perm {ds' ds : List FreqDict} (h : ds'.Perm ds) :
    (vocab ds').Perm (vocab ds) := by
  unfold vocab
  exact (perm_flatten (h.map fun d => d.map Prod.fst)).dedup

theorem mergedRaw_perm {ds' ds : List FreqDict} (h : ds'.Perm ds) :
    (mergedRaw ds').Perm (mergedRaw ds) := by
  unfold mergedRaw
  have hfun :
      (fun t => if 0 < trimmedMean ds' t then some (t, trimmedMean ds' t) else none)
        = fun t => if 0 < trimmedMean ds t then some (t, trimmedMean ds t) else none := by
    funext t
    rw [trimmedMean_perm h]
  rw [hfun]
  exact (vocab_perm h).filterMap _

theorem mergedTotal_perm {ds' ds : List FreqDict} (h : ds'.Perm ds) :
    mergedTotal ds' = mergedTotal ds :=
  ((mergedRaw_perm h).map Prod.snd).sum_eq

/-! ## Positivity of the normalization denominator -/

theorem mergedTotal_pos {ds : List FreqDict} (hne : mergedRaw ds ≠ []) :
    0 < mergedTotal ds := by
  apply List.sum_pos
  · intro q hq
    simp only [List.mem_map] at hq
    obtain ⟨⟨t, v⟩, hmem, rfl⟩ := hq
    have h := mem_mergedRaw_iff.mp hmem
    have := h.1
    rw [← h.2] at this
    exact this
  · simpa using hne

/-- Total mass of the renormalized mapping, exactly. -/
theorem sum_map_normalize (d : FreqDict) (T c : ℚ) :
    ((d.map fun p => (p.1, p.2 / T * c)).map Prod.snd).sum
      = (d.map Prod.snd).sum / T * c := by
  induction d with
  | nil => simp
  | cons p rest ih =>
    simp only [List.map_cons, List.sum_cons, ih]
    ring

end ExquisiteCorpus

namespace ExquisiteCorpus

/-! ## Concrete inputs used in the spec's scenarios -/

/-- The four source dicts of the spec's concrete merge scenario (§8). -/
def dsC4 : List FreqDict :=
  [[("a", 30/100), ("b", 10/100)], [("a", 20/100), ("b", 0)],
   [("a", 25/100), ("b", 5/100)], [("a", 40/100), ("b", 20/100)]]

/-- `dsC4` with its first two source dicts swapped. -/
def dsC4swap : List FreqDict :=
  [[("a", 20/100), ("b", 0)], [("a", 30/100), ("b", 10/100)],
   [("a", 25/100), ("b", 5/100)], [("a", 40/100), ("b", 20/100)]]

/-- Three identical one-token sources. -/
def dsUnif : List FreqDict :=
  [[("a", 1/2)], [("a", 1/2)], [("a", 1/2)]]

/-- The spec's single-source-suppression scenario: "x" has frequency 0.5
in one source of three and is absent from the other two. -/
def dsSingle : List FreqDict := [[("x", 1/2)], [], []]

theorem vocab_dsC4 : vocab dsC4 = ["a", "b"] := by decide

theorem trimmedMean_dsC4_a : trimmedMean dsC4 "a" = 11/40 := by
  have h : collectFreqs dsC4 "a" = [3/10, 1/5, 1/4, 2/5] := by
    simp [collectFreqs, dsC4, getFreq, findVal]
    norm_num
  rw [trimmedMean, h]
  norm_num [inliers, listMean, List.insertionSort, List.orderedInsert]

theorem trimmedMean_dsC4_b : trimmedMean dsC4 "b" = 3/40 := by
  have h : collectFreqs dsC4 "b" = [1/10, 0, 1/20, 1/5] := by
    simp [collectFreqs, dsC4, getFreq, findVal]
    norm_num
  rw [trimmedMean, h]
  norm_num [inliers, listMean, List.insertionSort, List.orderedInsert]

theorem mergedRaw_dsC4 : mergedRaw dsC4 = [("a", 11/40), ("b", 3/40)] := by
  rw [mergedRaw, vocab_dsC4]
  simp only [List.filterMap_cons, List.filterMap_nil, trimmedMean_dsC4_a,
    trimmedMean_dsC4_b]
  norm_num

theorem mergedTotal_dsC4 : mergedTotal dsC4 = 7/20 := by
  rw [mergedTotal, mergedRaw_dsC4]
  norm_num

theorem merge_dsC4 :
    merge_freqs dsC4 = some [("a", 1089/1400), ("b", 297/1400)] := by
  rw [merge_freqs, if_neg (by norm_num [dsC4]), mergedRaw_dsC4, mergedTotal_dsC4]
  norm_num

theorem vocab_dsSingle : vocab dsSingle = ["x"] := by decide

theorem trimmedMean_dsSingle : trimmedMean dsSingle "x" = 0 := by
  have h : collectFreqs dsSingle "x" = [1/2, 0, 0] := by
    simp [collectFreqs, dsSingle, getFreq, findVal]
  rw [trimmedMean, h]
  norm_num [inliers, listMean, List.insertionSort, List.orderedInsert]

theorem merge_dsSingle : merge_freqs dsSingle = some [] := by
  rw [merge_freqs, if_neg (by norm_num [dsSingle])]
  rw [mergedRaw, vocab_dsSingle]
  simp only [List.filterMap_cons, List.filterMap_nil, trimmedMean_dsSingle]
  norm_num

theorem vocab_dsUnif : vocab dsUnif = ["a"] := by decide

theorem trimmedMean_dsUnif : trimmedMean dsUnif "a" = 1/2 := by
  have h : collectFreqs dsUnif "a" = [1/2, 1/2, 1/2] := by
    simp [collectFreqs, dsUnif, getFreq, findVal]
  rw [trimmedMean, h]
  norm_num [inliers, listMean, List.insertionSort, List.orderedInsert]

theorem mergedRaw_dsUnif : mergedRaw dsUnif = [("a", 1/2)] := by
  rw [mergedRaw, vocab_dsUnif]
  simp only [List.filterMap_cons, List.filterMap_nil, trimmedMean_dsUnif]
  norm_num

theorem merge_dsUnif : merge_freqs dsUnif = some [("a", 99/100)] := by
  rw [merge_freqs, if_neg (by norm_num [dsUnif]), mergedRaw_dsUnif]
  rw [mergedTotal, mergedRaw_dsUnif]
  norm_num

end ExquisiteCorpus

namespace ExquisiteCorpus

/-! ## Claim theorems for the merge -/

/-- C1: for at least 3 frequency mappings, the recording loop of
`merge_freqs` records a token exactly when its trimmed mean — per-source
frequencies with absent sources as 0, sorted ascending, first and last
dropped, averaged — is strictly positive, and records exactly that mean;
in particular, with 3 mappings where "x" has frequency 0.5 in exactly one
source and is absent from the other two, "x" is excluded from the merged
result. -/
theorem C1_trimmed_mean_recording (ds : List FreqDict) (t : String) (q : ℚ)
    (_h3 : 3 ≤ ds.length) :
    ((t, q) ∈ mergedRaw ds ↔ 0 < trimmedMean ds t ∧ q = trimmedMean ds t)
    ∧ merge_freqs dsSingle = some [] :=
  ⟨mem_mergedRaw_iff, merge_dsSingle⟩

theorem C1_trimmed_mean_recording_witness :
    3 ≤ dsUnif.length
    ∧ (((("a" : String), (1 : ℚ)/2) ∈ mergedRaw dsUnif
          ↔ 0 < trimmedMean dsUnif "a" ∧ (1 : ℚ)/2 = trimmedMean dsUnif "a")
        ∧ merge_freqs dsSingle = some []) :=
  ⟨by norm_num [dsUnif], C1_trimmed_mean_recording dsUnif "a" (1/2) (by norm_num [dsUnif])⟩

/-- C3: whenever `merge_freqs` succeeds on at least 3 sources with a
non-empty result, the merged frequencies sum to 0.99 up to 1e-6 (in exact
arithmetic the sum is exactly 0.99). -/
theorem C3_merge_mass_invariant (ds : List FreqDict) (m : FreqDict)
    (h3 : 3 ≤ ds.length) (hm : merge_freqs ds = some m) (hne : m ≠ []) :
    |(m.map Prod.snd).sum - 99/100| ≤ 1/1000000 := by
  rw [merge_freqs, if_neg (Nat.not_lt.mpr h3)] at hm
  obtain rfl := Option.some.inj hm
  have hraw : mergedRaw ds ≠ [] := by
    intro h0
    apply hne
    rw [h0]
    rfl
  have htot : 0 < mergedTotal ds := mergedTotal_pos hraw
  rw [sum_map_normalize]
  show |mergedTotal ds / mergedTotal ds * (99/100) - 99/100| ≤ 1/1000000
  rw [div_self (ne_of_gt htot), one_mul, sub_self, abs_zero]
  norm_num

theorem C3_merge_mass_invariant_witness :
    3 ≤ dsUnif.length
    ∧ merge_freqs dsUnif = some [("a", 99/100)]
    ∧ ([("a", (99 : ℚ)/100)] : FreqDict) ≠ []
    ∧ |(([("a", (99 : ℚ)/100)] : FreqDict).map Prod.snd).sum - 99/100| ≤ 1/1000000 :=
  ⟨by norm_num [dsUnif], merge_dsUnif, by simp,
   C3_merge_mass_invariant dsUnif _ (by norm_num [dsUnif]) merge_dsUnif (by simp)⟩

/-- C4 counterexample: on the spec's four concrete mappings the merge
yields a = 1089/1400 ≈ 0.7779 and b = 297/1400 ≈ 0.2121, both more than
0.002 away from the claimed a ≈ 0.7757 and b ≈ 0.2143. -/
theorem C4_counterexample :
    mergeResultVal dsC4 "a" = some (1089/1400)
    ∧ mergeResultVal dsC4 "b" = some (297/1400)
    ∧ (1 : ℚ)/500 < |(1089 : ℚ)/1400 - 7757/10000|
    ∧ (1 : ℚ)/500 < |(297 : ℚ)/1400 - 2143/10000| := by
  refine ⟨?_, ?_, ?_, ?_⟩
  · rw [mergeResultVal, merge_dsC4]
    simp [findVal]
  · rw [mergeResultVal, merge_dsC4]
    simp [findVal]
  · rw [show (1089 : ℚ)/1400 - 7757/10000 = 151/70000 by norm_num,
      abs_of_pos (by norm_num : (0 : ℚ) < 151/70000)]
    norm_num
  · rw [show (297 : ℚ)/1400 - 2143/10000 = -(151/70000) by norm_num, abs_neg,
      abs_of_pos (by norm_num : (0 : ℚ) < 151/70000)]
    norm_num

/-- C4 (amended): on the spec's four concrete mappings, the trimmed means
are 0.275 for "a" and 0.075 for "b", and after renormalization to mass
0.99 the merged mapping assigns a = 1089/1400 ≈ 0.7779 and
b = 297/1400 ≈ 0.2121. -/
theorem C4_concrete_merge_scenario :
    trimmedMean dsC4 "a" = 11/40 ∧ trimmedMean dsC4 "b" = 3/40
    ∧ mergeResultVal dsC4 "a" = some (1089/1400)
    ∧ mergeResultVal dsC4 "b" = some (297/1400) := by
  refine ⟨trimmedMean_dsC4_a, trimmedMean_dsC4_b, ?_, ?_⟩
  · rw [mergeResultVal, merge_dsC4]
    simp [findVal]
  · rw [mergeResultVal, merge_dsC4]
    simp [findVal]

/-- C5: merging any permutation of the same multiset of at least 3
frequency mappings yields the identical merged mapping (token by token,
in exact arithmetic). -/
theorem C5_merge_order_independence (ds' ds : List FreqDict)
    (hp : ds'.Perm ds) (h3 : 3 ≤ ds.length) :
    ∀ t, mergeResultVal ds' t = mergeResultVal ds t := by
  intro t
  unfold mergeResultVal merge_freqs
  rw [hp.length_eq]
  have hlen : ¬ ds.length < 3 := Nat.not_lt.mpr h3
  rw [if_neg hlen, if_neg hlen]
  simp only [Option.some_bind]
  rw [findVal_map_value (fun v => v / mergedTotal ds' * (99 / 100)) (mergedRaw ds') t,
    findVal_map_value (fun v => v / mergedTotal ds * (99 / 100)) (mergedRaw ds) t,
    findVal_mergedRaw, findVal_mergedRaw, trimmedMean_perm hp t, mergedTotal_perm hp]

theorem C5_merge_order_independence_witness :
    dsC4swap.Perm dsC4 ∧ 3 ≤ dsC4.length
    ∧ ∀ t, mergeResultVal dsC4swap t = mergeResultVal dsC4 t :=
  ⟨List.Perm.swap _ _ _, by norm_num [dsC4],
   C5_merge_order_independence dsC4swap dsC4 (List.Perm.swap _ _ _) (by norm_num [dsC4])⟩

/-- C6: merging fewer than 3 frequency mappings fails (the Python code
raises `ValueError`, modelled as `none`); no merged mapping is ever
returned for 0, 1 or 2 sources. -/
theorem C6_insufficient_sources (ds : List FreqDict) (h : ds.length < 3) :
    merge_freqs ds = none := by
  rw [merge_freqs, if_pos h]

theorem C6_insufficient_sources_witness :
    ([] : List FreqDict).length < 3 ∧ merge_freqs [] = none :=
  ⟨by norm_num, C6_insufficient_sources [] (by norm_num)⟩

/-- C10: the renormalization in `merge_freqs` never divides by zero: with
at least 3 sources, a non-empty recorded mapping has a strictly positive
total (only strictly positive means are recorded), and an empty recorded
mapping makes the merge return the empty mapping without error. -/
theorem C10_no_division_by_zero (ds : List FreqDict) (h3 : 3 ≤ ds.length) :
    (mergedRaw ds ≠ [] → 0 < mergedTotal ds)
    ∧ (mergedRaw ds = [] → merge_freqs ds = some []) := by
  refine ⟨fun hne => mergedTotal_pos hne, fun he => ?_⟩
  rw [merge_freqs, if_neg (Nat.not_lt.mpr h3), he]
  rfl

theorem C10_no_division_by_zero_witness :
    3 ≤ dsUnif.length
    ∧ ((mergedRaw dsUnif ≠ [] → 0 < mergedTotal dsUnif)
        ∧ (mergedRaw dsUnif = [] → merge_freqs dsUnif = some [])) :=
  ⟨by norm_num [dsUnif], C10_no_division_by_zero dsUnif (by norm_num [dsUnif])⟩

end ExquisiteCorpus

namespace ExquisiteCorpus

/-! ## The count reader `single_count_file_to_freqs` -/

/-- One parsed line of a count file: the token and its integer count
(`word, strcount = line.rstrip().split('\t', 1); count = int(strcount)`). -/
abbrev CountLine := String × ℤ

/-- `freq_dict[word] += freq` on a `defaultdict(float)`: add to the entry
if the key is present, else append a new entry. -/
def addTo : FreqDict → String → ℚ → FreqDict
  | [], w, q => [(w, q)]
  | (w', v) :: rest, w, q =>
    if w' = w then (w', v + q) :: rest else (w', v) :: addTo rest w q

/-- The loop of `single_count_file_to_freqs`: `total` starts as Python
`None`; a `__total__` line sets it; any other line divides its count by
`total`. A token line before any `__total__` line raises `TypeError`
(`count / None`) and a zero total raises `ZeroDivisionError`, both
modelled as `none`; a computed frequency below 1e-9 breaks out of the
loop, keeping the dict built so far. -/
def scfLoop : List CountLine → Option ℤ → FreqDict → Option FreqDict
  | [], _, acc => some acc
  | (w, c) :: rest, total?, acc =>
    if w = "__total__" then scfLoop rest (some c) acc
    else
      match total? with
      | none => none
      | some tot =>
        if tot = 0 then none
        else
          if (c : ℚ) / (tot : ℚ) < 1/1000000000 then some acc
          else scfLoop rest total? (addTo acc w ((c : ℚ) / (tot : ℚ)))

/-- `single_count_file_to_freqs`: the frequency dict built from the lines
of a single count file (the subsequent write step is not modelled). -/
def single_count_file_to_freqs (lines : List CountLine) : Option FreqDict :=
  scfLoop lines none []

theorem scfLoop_total_set (lines : List CountLine) :
    ∀ (acc : FreqDict) (T : ℤ), T ≠ 0 →
      (∀ p ∈ lines, p.1 ≠ "__total__") →
      ∃ d, scfLoop lines (some T) acc = some d := by
  induction lines with
  | nil => exact fun acc T _ _ => ⟨acc, rfl⟩
  | cons p rest ih =>
    intro acc T hT hns
    obtain ⟨w, c⟩ := p
    have hw : w ≠ "__total__" := hns (w, c) (List.mem_cons_self _ _)
    rw [scfLoop, if_neg hw]
    simp only [if_neg hT]
    by_cases hsmall : (c : ℚ) / (T : ℚ) < 1/1000000000
    · exact ⟨acc, by rw [if_pos hsmall]⟩
    · rw [if_neg hsmall]
      exact ih _ T hT fun p hp => hns p (List.mem_cons_of_mem _ hp)

end ExquisiteCorpus

namespace ExquisiteCorpus

/-- C9 counterexample: the count reader is not position-independent in the
`__total__` line: on the file `w\t5`, `__total__\t10` it fails (the token
line is normalized before `total` is set, Python `count / None`), while
the reordered file `__total__\t10`, `w\t5` produces {w: 0.5}. -/
theorem C9_counterexample :
    single_count_file_to_freqs [("w", 5), ("__total__", 10)] = none
    ∧ single_count_file_to_freqs [("__total__", 10), ("w", 5)]
        = some [("w", 1/2)] := by
  constructor
  · simp [single_count_file_to_freqs, scfLoop]
  · rw [single_count_file_to_freqs, scfLoop, if_pos rfl, scfLoop,
      if_neg (by decide : ¬ ("w" = "__total__"))]
    have h5 : ¬ ((5 : ℤ) : ℚ) / ((10 : ℤ) : ℚ) < 1/1000000000 := by norm_num
    simp only [if_neg h5]
    norm_num [scfLoop, addTo]

/-- C9 (amended): the count reader requires the `__total__` line to
precede all token lines: with `__total__` first (positive total, and no
further sentinel line) it succeeds, while any file whose first line is a
token line fails. -/
theorem C9_total_must_precede_tokens (T : ℤ) (rest : List CountLine)
    (hT : 0 < T) (hns : ∀ p ∈ rest, p.1 ≠ "__total__") :
    (∃ d, single_count_file_to_freqs (("__total__", T) :: rest) = some d)
    ∧ ∀ (w : String) (c : ℤ) (rest' : List CountLine), w ≠ "__total__" →
        single_count_file_to_freqs ((w, c) :: rest') = none := by
  constructor
  · rw [single_count_file_to_freqs, scfLoop, if_pos rfl]
    exact scfLoop_total_set rest [] T (ne_of_gt hT) hns
  · intro w c rest' hw
    rw [single_count_file_to_freqs, scfLoop, if_neg hw]

theorem C9_total_must_precede_tokens_witness :
    (0 : ℤ) < 10 ∧ (∀ p ∈ ([("w", 5)] : List CountLine), p.1 ≠ "__total__")
    ∧ ((∃ d, single_count_file_to_freqs [("__total__", 10), ("w", 5)] = some d)
        ∧ ∀ (w : String) (c : ℤ) (rest' : List CountLine), w ≠ "__total__" →
            single_count_file_to_freqs ((w, c) :: rest') = none) :=
  ⟨by norm_num, by simp,
   C9_total_must_precede_tokens 10 [("w", 5)] (by norm_num) (by simp)⟩

end ExquisiteCorpus

namespace ExquisiteCorpus

/-! ## The centibel transform and the export stages -/

/-- Errors raised by the export stages, as distinct Python exceptions:
`formatMismatch` models `ValueError("This is a count file, not a
frequency file")`, `domainError` models `math.log10` on a non-positive
argument, `indexError` models an out-of-range Python list index. -/
inductive PackError where
  | formatMismatch
  | domainError
  | indexError
deriving DecidableEq

/-- Python's `round(math.log10(q) * 100)` computed exactly over ℚ: with
`e = ⌊log10 (10 * q ^ 200)⌋`, the result is the unique integer `k` with
`10 ^ (2k - 1) ≤ q ^ 200 < 10 ^ (2k + 1)`, i.e. the nearest integer to
`100 * log10 q` (for rational `q > 0` the tie `100 * log10 q = k + 1/2`
cannot occur, so this agrees with Python's round-half-to-even). Returns
the junk value 0 for `q ≤ 0`, where Python raises a math domain error;
callers check the sign first. -/
def cB (q : ℚ) : ℤ :=
  if q ≤ 0 then 0
  else
    let e := Int.log 10 (10 * q ^ 200)
    (if 2 ∣ e then e else e - 1) / 2

/-- Python 3 `round` on a rational: round half to even. -/
def pround (q : ℚ) : ℤ :=
  if q - ⌊q⌋ < 1/2 then ⌊q⌋
  else if (1 : ℚ)/2 < q - ⌊q⌋ then ⌊q⌋ + 1
  else if 2 ∣ ⌊q⌋ then ⌊q⌋ else ⌊q⌋ + 1

/-- The Jieba exporter's stop test `-(math.log10(freq) * 100) >= cutoff`
(note: unrounded, unlike the tier packer), computed exactly over ℚ:
for `freq > 0` it is equivalent to `freq ^ 100 ≤ 10 ^ (-cutoff)`. -/
def jiebaStop (freq : ℚ) (cutoff : ℤ) : Prop :=
  freq ^ 100 ≤ (10 : ℚ) ^ (-cutoff)

instance (f : ℚ) (c : ℤ) : Decidable (jiebaStop f c) :=
  inferInstanceAs (Decidable (f ^ 100 ≤ (10 : ℚ) ^ (-c)))

/-- `cBpack[i].append(word)` with Python list-index semantics: a negative
index counts from the end of the list; an index still out of range raises
`IndexError`, modelled as `none`. -/
def appendAt (tiers : List (List String)) (i : ℤ) (w : String) :
    Option (List (List String)) :=
  if 0 ≤ (if i < 0 then i + tiers.length else i)
      ∧ (if i < 0 then i + tiers.length else i) < (tiers.length : ℤ) then
    some (tiers.set (if i < 0 then i + tiers.length else i).toNat
      (tiers.getD (if i < 0 then i + tiers.length else i).toNat [] ++ [w]))
  else none

/-- `while neg_cB >= len(cBpack): cBpack.append([])`. -/
def padTo (tiers : List (List String)) (i : ℤ) : List (List String) :=
  if i < (tiers.length : ℤ) then tiers
  else tiers ++ List.replicate (i.toNat + 1 - tiers.length) []

/-- The line loop of `freqs_to_cBpack`: a `__total__` line raises the
format-mismatch `ValueError`; a non-positive frequency is a math domain
error in `log10`; a tier index at or beyond the cutoff breaks out of the
loop; otherwise the tier list is grown as needed and the word appended to
its tier. -/
def cBpackLoop (cutoff : ℤ) :
    List (String × ℚ) → List (List String) → Except PackError (List (List String))
  | [], tiers => .ok tiers
  | (word, freq) :: rest, tiers =>
    if word = "__total__" then .error .formatMismatch
    else if freq ≤ 0 then .error .domainError
    else if cutoff ≤ -(cB freq) then .ok tiers
    else
      match appendAt (padTo tiers (-(cB freq))) (-(cB freq)) word with
      | none => .error .indexError
      | some tiers' => cBpackLoop cutoff rest tiers'

/-- The value serialized by `freqs_to_cBpack`: the header record fields
and the list of tiers. -/
structure CBPackData where
  format : String
  version : ℕ
  tiers : List (List String)

/-- `freqs_to_cBpack`: run the line loop from an empty tier list, sort
every tier lexicographically, and prepend the header `{format: "cB",
version: 1}`. -/
def freqs_to_cBpack (lines : List (String × ℚ)) (cutoff : ℤ) :
    Except PackError CBPackData :=
  (cBpackLoop cutoff lines []).map fun tiers =>
    { format := "cB", version := 1,
      tiers := tiers.map fun l => l.insertionSort (· ≤ ·) }

/-- Python `word.strip()` with no arguments: remove leading and trailing
whitespace (structural on the character list, so that concrete instances
evaluate). -/
def pstrip (s : String) : String :=
  ⟨((s.data.dropWhile Char.isWhitespace).reverse.dropWhile Char.isWhitespace).reverse⟩

/-- `freqs_to_jieba`: each emitted line is a (token, integer pseudo-count)
pair; the second component is the error that stopped the stream, if any.
A `__total__` line raises the format-mismatch `ValueError`; a token that
is empty after stripping whitespace is skipped; a non-positive frequency
is a math domain error in `log10`; the first non-skipped token at or
beyond the cutoff breaks out of the loop. -/
def freqs_to_jieba (cutoff : ℤ) :
    List (String × ℚ) → List (String × ℤ) × Option PackError
  | [] => ([], none)
  | (word, freq) :: rest =>
    if word = "__total__" then ([], some .formatMismatch)
    else if pstrip word = "" then freqs_to_jieba cutoff rest
    else if freq ≤ 0 then ([], some .domainError)
    else if jiebaStop freq cutoff then ([], none)
    else
      ((word, pround (freq * 1000000000)) :: (freqs_to_jieba cutoff rest).1,
        (freqs_to_jieba cutoff rest).2)

/-- The per-line rendering of the Jieba export: skip whitespace-only
tokens, emit `(token, round(freq * 1e9))` otherwise. -/
def jiebaRender (p : String × ℚ) : Option (String × ℤ) :=
  if pstrip p.1 = "" then none else some (p.1, pround (p.2 * 1000000000))

end ExquisiteCorpus

namespace ExquisiteCorpus

theorem cB_spec {q : ℚ} (hq : 0 < q) :
    (10 : ℚ) ^ (2 * cB q - 1) ≤ q ^ 200 ∧ q ^ 200 < (10 : ℚ) ^ (2 * cB q + 1) := by
  have h10 : (0 : ℚ) < 10 := by norm_num
  have hq200 : (0 : ℚ) < q ^ 200 := pow_pos hq 200
  have harg : (0 : ℚ) < 10 * q ^ 200 := by positivity
  have hlog1 : (10 : ℚ) ^ Int.log 10 (10 * q ^ 200) ≤ 10 * q ^ 200 := by
    have := Int.zpow_log_le_self (R := ℚ) (b := 10) (by norm_num) harg
    simpa using this
  have hlog2 : 10 * q ^ 200 < (10 : ℚ) ^ (Int.log 10 (10 * q ^ 200) + 1) := by
    have := Int.lt_zpow_succ_log_self (R := ℚ) (b := 10) (by norm_num) (10 * q ^ 200)
    simpa using this
  set e := Int.log 10 (10 * q ^ 200) with he
  have h1 : (10 : ℚ) ^ (e - 1) ≤ q ^ 200 := by
    rw [← mul_le_mul_right h10]
    calc (10 : ℚ) ^ (e - 1) * 10 = 10 ^ (e - 1 + 1) := by
          rw [zpow_add_one₀ (ne_of_gt h10)]
      _ = 10 ^ e := by rw [sub_add_cancel]
      _ ≤ 10 * q ^ 200 := hlog1
      _ = q ^ 200 * 10 := by ring
  have h2 : q ^ 200 < (10 : ℚ) ^ e := by
    rw [← mul_lt_mul_right h10]
    calc q ^ 200 * 10 = 10 * q ^ 200 := by ring
      _ < 10 ^ (e + 1) := hlog2
      _ = 10 ^ e * 10 := by rw [zpow_add_one₀ (ne_of_gt h10)]
  have hcB : cB q = (if 2 ∣ e then e else e - 1) / 2 := by
    rw [cB, if_neg (not_le.mpr hq)]
  rcases Int.even_or_odd e with ⟨m, hm⟩ | ⟨m, hm⟩
  · -- e = m + m
    have hdvd : 2 ∣ e := ⟨m, by omega⟩
    have hk : cB q = m := by
      rw [hcB, if_pos hdvd, hm]
      omega
    rw [hk]
    constructor
    · have h2m : (2 * m - 1 : ℤ) = e - 1 := by omega
      rw [h2m]
      exact h1
    · have hle : (e : ℤ) ≤ 2 * m + 1 := by omega
      exact h2.trans_le (zpow_le_zpow_right₀ (by norm_num) hle)
  · -- e = 2m + 1
    have hdvd : ¬ 2 ∣ e := by omega
    have hk : cB q = m := by
      rw [hcB, if_neg hdvd, hm]
      omega
    rw [hk]
    constructor
    · have hle : (2 * m - 1 : ℤ) ≤ e - 1 := by omega
      exact (zpow_le_zpow_right₀ (by norm_num) hle).trans h1
    · have : (2 * m + 1 : ℤ) = e := by omega
      rw [this]
      exact h2

theorem cB_unique {q : ℚ} (hq : 0 < q) (k : ℤ)
    (h1 : (10 : ℚ) ^ (2 * k - 1) ≤ q ^ 200)
    (h2 : q ^ 200 < (10 : ℚ) ^ (2 * k + 1)) : cB q = k := by
  obtain ⟨hs1, hs2⟩ := cB_spec hq
  by_contra hne
  rcases lt_or_gt_of_ne hne with hlt | hgt
  · have hle : (2 * cB q + 1 : ℤ) ≤ 2 * k - 1 := by omega
    have := hs2.trans_le (zpow_le_zpow_right₀ (by norm_num : (1:ℚ) ≤ 10) hle)
    exact lt_irrefl _ (this.trans_le h1)
  · have hle : (2 * k + 1 : ℤ) ≤ 2 * cB q - 1 := by omega
    have := h2.trans_le (zpow_le_zpow_right₀ (by norm_num : (1:ℚ) ≤ 10) hle)
    exact lt_irrefl _ (this.trans_le hs1)

theorem cB_mono {q q' : ℚ} (hq : 0 < q) (hle : q ≤ q') : cB q ≤ cB q' := by
  have hq' : 0 < q' := lt_of_lt_of_le hq hle
  obtain ⟨h1, _⟩ := cB_spec hq
  obtain ⟨_, h2'⟩ := cB_spec hq'
  have hpow : q ^ 200 ≤ q' ^ 200 := pow_le_pow_left₀ hq.le hle 200
  have hchain : (10 : ℚ) ^ (2 * cB q - 1) < (10 : ℚ) ^ (2 * cB q' + 1) :=
    (h1.trans hpow).trans_lt h2'
  rw [zpow_lt_zpow_iff_right₀ (by norm_num : (1:ℚ) < 10)] at hchain
  omega

theorem cB_nonpos {q : ℚ} (h0 : 0 < q) (h1 : q ≤ 1) : cB q ≤ 0 := by
  obtain ⟨hs1, _⟩ := cB_spec h0
  have hle1 : q ^ 200 ≤ 1 := pow_le_one₀ h0.le h1
  have : (10 : ℚ) ^ (2 * cB q - 1) ≤ (10 : ℚ) ^ (0 : ℤ) := by
    rw [zpow_zero]
    exact hs1.trans hle1
  rw [zpow_le_zpow_iff_right₀ (by norm_num : (1:ℚ) < 10)] at this
  omega

/-- If the rounded centibel index is below the cutoff, so is the
unrounded one: the Jieba stop test does not fire. -/
theorem not_jiebaStop_of_cB_lt {f : ℚ} (hf : 0 < f) {c : ℤ}
    (h : -(cB f) < c) : ¬ jiebaStop f c := by
  intro hstop
  obtain ⟨hs1, _⟩ := cB_spec hf
  have hf100 : (0 : ℚ) < f ^ 100 := pow_pos hf 100
  have hsq : f ^ 200 ≤ ((10 : ℚ) ^ (-c)) ^ 2 := by
    calc f ^ 200 = (f ^ 100) ^ 2 := by rw [← pow_mul]
      _ ≤ ((10 : ℚ) ^ (-c)) ^ 2 := by
          apply pow_le_pow_left₀ hf100.le hstop
  have hz : ((10 : ℚ) ^ (-c)) ^ 2 = (10 : ℚ) ^ (-2 * c) := by
    rw [← zpow_natCast ((10:ℚ) ^ (-c)) 2, ← zpow_mul]
    ring_nf
  have : (10 : ℚ) ^ (2 * cB f - 1) ≤ (10 : ℚ) ^ (-2 * c) := by
    rw [← hz]
    exact hs1.trans hsq
  rw [zpow_le_zpow_iff_right₀ (by norm_num : (1:ℚ) < 10)] at this
  omega

end ExquisiteCorpus

namespace ExquisiteCorpus

theorem getD_padTo (tiers : List (List String)) (i : ℤ) (j : ℕ) :
    (padTo tiers i).getD j [] = tiers.getD j [] := by
  rw [padTo]
  by_cases h : i < (tiers.length : ℤ)
  · rw [if_pos h]
  · rw [if_neg h]
    simp only [List.getD_eq_getElem?_getD, List.getElem?_append]
    by_cases hj : j < tiers.length
    · rw [if_pos hj]
    · rw [if_neg hj]
      rw [List.getElem?_replicate]
      have hjlen : (tiers[j]?) = none := List.getElem?_eq_none (Nat.le_of_not_lt hj)
      rw [hjlen]
      by_cases hrep : j - tiers.length < i.toNat + 1 - tiers.length
      · rw [if_pos hrep]
        rfl
      · rw [if_neg hrep]

theorem length_padTo (tiers : List (List String)) {i : ℤ} (hi : 0 ≤ i) :
    (padTo tiers i).length = max tiers.length (i.toNat + 1) := by
  rw [padTo]
  by_cases h : i < (tiers.length : ℤ)
  · rw [if_pos h]
    have : i.toNat < tiers.length := by omega
    omega
  · rw [if_neg h]
    rw [List.length_append, List.length_replicate]
    have : (tiers.length : ℤ) ≤ i := not_lt.mp h
    omega

theorem appendAt_padTo (tiers : List (List String)) {i : ℤ} (hi : 0 ≤ i)
    (w : String) :
    ∃ tiers', appendAt (padTo tiers i) i w = some tiers'
      ∧ tiers'.length = max tiers.length (i.toNat + 1)
      ∧ ∀ j : ℕ, tiers'.getD j []
          = if j = i.toNat then tiers.getD j [] ++ [w] else tiers.getD j [] := by
  have hlen : (padTo tiers i).length = max tiers.length (i.toNat + 1) :=
    length_padTo tiers hi
  have hin : i < ((padTo tiers i).length : ℤ) := by
    rw [hlen]
    omega
  refine ⟨(padTo tiers i).set i.toNat ((padTo tiers i).getD i.toNat [] ++ [w]),
    ?_, ?_, ?_⟩
  · rw [appendAt, if_neg (not_lt.mpr hi)]
    rw [if_pos ⟨hi, hin⟩]
  · rw [List.length_set, hlen]
  · intro j
    rw [List.getD_eq_getElem?_getD]
    by_cases hj : j = i.toNat
    · subst hj
      have hjl : i.toNat < (padTo tiers i).length := by omega
      rw [List.getElem?_set_self hjl, Option.getD_some, if_pos rfl, getD_padTo]
    · rw [List.getElem?_set_ne (fun h => hj h.symm), ← List.getD_eq_getElem?_getD,
        getD_padTo, if_neg hj]

end ExquisiteCorpus

namespace ExquisiteCorpus

theorem cBpackLoop_spec (cutoff : ℤ) :
    ∀ (lines : List (String × ℚ)) (tiers : List (List String)),
      (∀ p ∈ lines, p.1 ≠ "__total__") →
      (∀ p ∈ lines, 0 < p.2 ∧ p.2 ≤ 1) →
      List.Pairwise (fun a b => b.2 ≤ a.2) lines →
      (tiers.length : ℤ) ≤ max cutoff 0 →
      ∃ res, cBpackLoop cutoff lines tiers = .ok res
        ∧ (res.length : ℤ) ≤ max cutoff 0
        ∧ ∀ (j : ℕ) (w : String),
            w ∈ res.getD j [] ↔
              (w ∈ tiers.getD j []
                ∨ ∃ f, (w, f) ∈ lines ∧ -(cB f) = (j : ℤ) ∧ (j : ℤ) < cutoff) := by
  intro lines
  induction lines with
  | nil =>
    intro tiers _ _ _ hlen
    exact ⟨tiers, rfl, hlen, fun j w => by simp⟩
  | cons p rest ih =>
    obtain ⟨word, freq⟩ := p
    intro tiers hns hrange hsorted hlen
    have hw : word ≠ "__total__" := hns (word, freq) (List.mem_cons_self _ _)
    have hfr : 0 < freq ∧ freq ≤ 1 := hrange (word, freq) (List.mem_cons_self _ _)
    obtain ⟨hhead, htail⟩ := List.pairwise_cons.mp hsorted
    have hnsr : ∀ p ∈ rest, p.1 ≠ "__total__" :=
      fun p hp => hns p (List.mem_cons_of_mem _ hp)
    have hranger : ∀ p ∈ rest, 0 < p.2 ∧ p.2 ≤ 1 :=
      fun p hp => hrange p (List.mem_cons_of_mem _ hp)
    simp only [cBpackLoop]
    rw [if_neg hw, if_neg (not_le.mpr hfr.1)]
    by_cases hstop : cutoff ≤ -(cB freq)
    · rw [if_pos hstop]
      refine ⟨tiers, rfl, hlen, fun j w => ?_⟩
      constructor
      · exact Or.inl
      · rintro (hmem | ⟨f, hf, hj, hjc⟩)
        · exact hmem
        · exfalso
          rcases List.mem_cons.mp hf with heq | hfrest
          · have hfe : f = freq := (Prod.mk.injEq _ _ _ _ ▸ heq).2
            rw [hfe] at hj
            omega
          · have hfpos : 0 < f := (hranger _ hfrest).1
            have hfle : f ≤ freq := hhead _ hfrest
            have := cB_mono hfpos hfle
            omega
    · rw [if_neg hstop]
      have hgo : -(cB freq) < cutoff := not_le.mp hstop
      have hi0 : (0 : ℤ) ≤ -(cB freq) := by
        have := cB_nonpos hfr.1 hfr.2
        omega
      obtain ⟨tiers', happ, hlen', hget⟩ := appendAt_padTo tiers hi0 word
      rw [happ]
      have hlen'2 : (tiers'.length : ℤ) ≤ max cutoff 0 := by
        rw [hlen']
        push_cast
        omega
      obtain ⟨res, hres, hreslen, hresmem⟩ := ih tiers' hnsr hranger htail hlen'2
      refine ⟨res, hres, hreslen, fun j w => ?_⟩
      rw [hresmem j w, hget j]
      by_cases hj : j = (-(cB freq)).toNat
      · subst hj
        rw [if_pos rfl]
        constructor
        · rintro (hmem | ⟨f, hf, hjf, hjc⟩)
          · rcases List.mem_append.mp hmem with hmem | hmem
            · exact Or.inl hmem
            · have hww : w = word := List.mem_singleton.mp hmem
              subst hww
              exact Or.inr ⟨freq, List.mem_cons_self _ _, by omega, by omega⟩
          · exact Or.inr ⟨f, List.mem_cons_of_mem _ hf, hjf, hjc⟩
        · rintro (hmem | ⟨f, hf, hjf, hjc⟩)
          · exact Or.inl (List.mem_append.mpr (Or.inl hmem))
          · rcases List.mem_cons.mp hf with heq | hfrest
            · have hwe : w = word := (Prod.mk.injEq _ _ _ _ ▸ heq).1
              subst hwe
              exact Or.inl (List.mem_append.mpr (Or.inr (List.mem_singleton.mpr rfl)))
            · exact Or.inr ⟨f, hfrest, hjf, hjc⟩
      · rw [if_neg hj]
        constructor
        · rintro (hmem | ⟨f, hf, hjf, hjc⟩)
          · exact Or.inl hmem
          · exact Or.inr ⟨f, List.mem_cons_of_mem _ hf, hjf, hjc⟩
        · rintro (hmem | ⟨f, hf, hjf, hjc⟩)
          · exact Or.inl hmem
          · rcases List.mem_cons.mp hf with heq | hfrest
            · exfalso
              have hfe : f = freq := (Prod.mk.injEq _ _ _ _ ▸ heq).2
              subst hfe
              omega
            · exact Or.inr ⟨f, hfrest, hjf, hjc⟩

end ExquisiteCorpus

namespace ExquisiteCorpus

/-- C2: on a sentinel-free frequency list sorted descending (frequencies
in (0,1] per the spec's FrequencyMapping invariant) and any integer
cutoff, the tier packer succeeds with the header `{format: "cB",
version: 1}`, tiers indexed from 0 with no gaps (the list-of-tiers
output makes every index below the length a tier, possibly empty), no
tier at or beyond the cutoff, each token appearing exactly in the tier
`round(-100*log10 freq)` computed by `cB` when that index is below the
cutoff, every tier sorted lexicographically, and tier indices
non-decreasing along the input. -/
theorem C2_cBpack_structure (lines : List (String × ℚ)) (cutoff : ℤ)
    (hns : ∀ p ∈ lines, p.1 ≠ "__total__")
    (hrange : ∀ p ∈ lines, 0 < p.2 ∧ p.2 ≤ 1)
    (hsorted : List.Pairwise (fun a b => b.2 ≤ a.2) lines) :
    ∃ pack, freqs_to_cBpack lines cutoff = .ok pack
      ∧ pack.format = "cB" ∧ pack.version = 1
      ∧ (pack.tiers.length : ℤ) ≤ max cutoff 0
      ∧ (∀ (j : ℕ) (w : String), w ∈ pack.tiers.getD j [] ↔
            ∃ f, (w, f) ∈ lines ∧ -(cB f) = (j : ℤ) ∧ (j : ℤ) < cutoff)
      ∧ (∀ j : ℕ, (pack.tiers.getD j []).Sorted (· ≤ ·))
      ∧ List.Pairwise (fun a b => -(cB a.2) ≤ -(cB b.2)) lines := by
  obtain ⟨res, hres, hreslen, hresmem⟩ :=
    cBpackLoop_spec cutoff lines [] hns hrange hsorted (by simp)
  refine ⟨CBPackData.mk "cB" 1 (res.map fun l => l.insertionSort (· ≤ ·)),
    ?_, rfl, rfl, ?_, ?_, ?_, ?_⟩
  · rw [freqs_to_cBpack, hres]
    rfl
  · simp only [List.length_map]
    exact hreslen
  · intro j w
    have hbase := hresmem j w
    simp only [List.getD_nil, List.not_mem_nil, false_or] at hbase
    simp only [List.getD_eq_getElem?_getD, List.getElem?_map]
    rw [List.getD_eq_getElem?_getD] at hbase
    cases hj : res[j]? with
    | none =>
      rw [hj] at hbase
      simp only [Option.map_none', Option.getD_none]
      simp only [Option.getD_none] at hbase
      simpa using hbase
    | some t =>
      rw [hj] at hbase
      simp only [Option.map_some', Option.getD_some]
      simp only [Option.getD_some] at hbase
      rw [(List.perm_insertionSort (· ≤ ·) t).mem_iff]
      exact hbase
  · intro j
    simp only [List.getD_eq_getElem?_getD, List.getElem?_map]
    cases hj : res[j]? with
    | none => simp
    | some t =>
      simp only [Option.map_some', Option.getD_some]
      exact List.sorted_insertionSort _ t
  · refine hsorted.imp_of_mem ?_
    intro a b ha hb hba
    have hbpos := (hrange b hb).1
    have := cB_mono hbpos hba
    omega

theorem C2_cBpack_structure_witness :
    (∀ p ∈ ([("b", 1/10), ("a", 1/100)] : List (String × ℚ)), p.1 ≠ "__total__")
    ∧ (∀ p ∈ ([("b", 1/10), ("a", 1/100)] : List (String × ℚ)), 0 < p.2 ∧ p.2 ≤ 1)
    ∧ List.Pairwise (fun a b => b.2 ≤ a.2) ([("b", 1/10), ("a", 1/100)] : List (String × ℚ))
    ∧ ∃ pack, freqs_to_cBpack [("b", 1/10), ("a", 1/100)] 600 = .ok pack
        ∧ pack.format = "cB" ∧ pack.version = 1
        ∧ (pack.tiers.length : ℤ) ≤ max 600 0
        ∧ (∀ (j : ℕ) (w : String), w ∈ pack.tiers.getD j [] ↔
              ∃ f, (w, f) ∈ ([("b", 1/10), ("a", 1/100)] : List (String × ℚ))
                ∧ -(cB f) = (j : ℤ) ∧ (j : ℤ) < 600)
        ∧ (∀ j : ℕ, (pack.tiers.getD j []).Sorted (· ≤ ·))
        ∧ List.Pairwise (fun a b => -(cB a.2) ≤ -(cB b.2))
            ([("b", 1/10), ("a", 1/100)] : List (String × ℚ)) :=
  ⟨by intro p hp; fin_cases hp <;> simp,
   by intro p hp; fin_cases hp <;> norm_num,
   by norm_num [List.pairwise_cons],
   C2_cBpack_structure [("b", 1/10), ("a", 1/100)] 600
     (by intro p hp; fin_cases hp <;> simp)
     (by intro p hp; fin_cases hp <;> norm_num)
     (by norm_num [List.pairwise_cons])⟩

end ExquisiteCorpus

namespace ExquisiteCorpus

theorem cB_one_tenth : cB (1/10 : ℚ) = -100 :=
  cB_unique (by norm_num) (-100) (by norm_num) (by norm_num)

theorem cB_em7 : cB (1/10000000 : ℚ) = -700 :=
  cB_unique (by norm_num) (-700) (by norm_num) (by norm_num)

theorem cB_1005em9 : cB (1005/1000000000 : ℚ) = -600 :=
  cB_unique (by norm_num) (-600) (by norm_num) (by norm_num)

/-- The tier-packer loop hits the `__total__` sentinel and raises, as long
as every earlier line is a valid frequency line below the cutoff. -/
theorem cBpackLoop_sentinel_error (cutoff : ℤ) (c : ℚ) (post : List (String × ℚ)) :
    ∀ (pre : List (String × ℚ)) (tiers : List (List String)),
      (∀ p ∈ pre, p.1 ≠ "__total__") →
      (∀ p ∈ pre, 0 < p.2 ∧ p.2 ≤ 1) →
      (∀ p ∈ pre, -(cB p.2) < cutoff) →
      cBpackLoop cutoff (pre ++ ("__total__", c) :: post) tiers
        = .error .formatMismatch := by
  intro pre
  induction pre with
  | nil =>
    intro tiers _ _ _
    simp [cBpackLoop]
  | cons p rest ih =>
    obtain ⟨w, f⟩ := p
    intro tiers hns hrange hbelow
    have hw : w ≠ "__total__" := hns (w, f) (List.mem_cons_self _ _)
    have hf : 0 < f ∧ f ≤ 1 := hrange (w, f) (List.mem_cons_self _ _)
    have hb : -(cB f) < cutoff := hbelow (w, f) (List.mem_cons_self _ _)
    have hi0 : (0 : ℤ) ≤ -(cB f) := by
      have := cB_nonpos hf.1 hf.2
      omega
    obtain ⟨tiers', happ, _, _⟩ := appendAt_padTo tiers hi0 w
    simp only [List.cons_append, cBpackLoop, List.append_eq]
    rw [if_neg hw, if_neg (not_le.mpr hf.1), if_neg (not_le.mpr hb), happ]
    exact ih tiers' (fun p hp => hns p (List.mem_cons_of_mem _ hp))
      (fun p hp => hrange p (List.mem_cons_of_mem _ hp))
      (fun p hp => hbelow p (List.mem_cons_of_mem _ hp))

/-- The Jieba exporter hits the `__total__` sentinel after emitting the
lines for the tokens before it. -/
theorem jieba_sentinel_error (cutoff : ℤ) (c : ℚ) (post : List (String × ℚ)) :
    ∀ pre : List (String × ℚ),
      (∀ p ∈ pre, p.1 ≠ "__total__") →
      (∀ p ∈ pre, 0 < p.2) →
      (∀ p ∈ pre, -(cB p.2) < cutoff) →
      freqs_to_jieba cutoff (pre ++ ("__total__", c) :: post)
        = (pre.filterMap jiebaRender, some .formatMismatch) := by
  intro pre
  induction pre with
  | nil =>
    intro _ _ _
    simp [freqs_to_jieba]
  | cons p rest ih =>
    obtain ⟨w, f⟩ := p
    intro hns hpos hbelow
    have hw : w ≠ "__total__" := hns (w, f) (List.mem_cons_self _ _)
    have hf : 0 < f := hpos (w, f) (List.mem_cons_self _ _)
    have hb : -(cB f) < cutoff := hbelow (w, f) (List.mem_cons_self _ _)
    have ihr := ih (fun p hp => hns p (List.mem_cons_of_mem _ hp))
      (fun p hp => hpos p (List.mem_cons_of_mem _ hp))
      (fun p hp => hbelow p (List.mem_cons_of_mem _ hp))
    simp only [List.cons_append, freqs_to_jieba, List.append_eq]
    rw [if_neg hw]
    by_cases ht : pstrip w = ""
    · rw [if_pos ht, ihr, List.filterMap_cons]
      rw [show jiebaRender (w, f) = none from if_pos ht]
    · rw [if_neg ht, if_neg (not_le.mpr hf),
        if_neg (not_jiebaStop_of_cB_lt hf hb), ihr, List.filterMap_cons]
      rw [show jiebaRender (w, f) = some (w, pround (f * 1000000000)) from if_neg ht]

end ExquisiteCorpus

namespace ExquisiteCorpus

/-- C7 counterexample: a stream that contains a `__total__` line does not
always make the exporters fail: if an earlier token already triggers the
cutoff stop, the scan ends before the sentinel is seen and both stages
finish without error (the token "w" with frequency 1e-7 has tier index
700 ≥ 600). -/
theorem C7_counterexample :
    ("__total__", (1 : ℚ)) ∈ ([("w", 1/10000000), ("__total__", 1)] : List (String × ℚ))
    ∧ freqs_to_cBpack [("w", 1/10000000), ("__total__", 1)] 600
        = .ok (CBPackData.mk "cB" 1 [])
    ∧ freqs_to_jieba 600 [("w", 1/10000000), ("__total__", 1)] = ([], none) := by
  refine ⟨by simp, ?_, ?_⟩
  · have h1 : cBpackLoop 600 [("w", 1/10000000), ("__total__", 1)]
        ([] : List (List String)) = .ok [] := by
      rw [cBpackLoop]
      rw [if_neg (by decide : ¬ ("w" = "__total__")),
        if_neg (by norm_num : ¬ (1/10000000 : ℚ) ≤ 0),
        if_pos (by rw [cB_em7]; norm_num : (600 : ℤ) ≤ -(cB (1/10000000 : ℚ)))]
    rw [freqs_to_cBpack, h1]
    rfl
  · rw [show freqs_to_jieba 600 [("w", 1/10000000), ("__total__", 1)]
        = if jiebaStop (1/10000000 : ℚ) 600 then ([], none)
          else (("w", pround ((1/10000000 : ℚ) * 1000000000))
              :: (freqs_to_jieba 600 [("__total__", 1)]).1,
            (freqs_to_jieba 600 [("__total__", 1)]).2) from by
      rw [freqs_to_jieba]
      rw [if_neg (by decide : ¬ ("w" = "__total__")),
        if_neg (by decide : ¬ (pstrip "w" = "")),
        if_neg (by norm_num : ¬ (1/10000000 : ℚ) ≤ 0)]]
    rw [if_pos (show jiebaStop (1/10000000 : ℚ) 600 from by
      rw [jiebaStop]
      norm_num)]

/-- C7 (amended): both exporters fail with the format-mismatch error at
the first `__total__` line provided every earlier line is a frequency
line whose tier index is below the cutoff (so the scan reaches the
sentinel); the tier packer produces no output, while the Jieba exporter
has already emitted the renderings of the tokens preceding the sentinel.
A sentinel positioned after a cutoff-stopping token is never detected. -/
theorem C7_format_mismatch (cutoff : ℤ) (pre post : List (String × ℚ)) (c : ℚ)
    (hns : ∀ p ∈ pre, p.1 ≠ "__total__")
    (hrange : ∀ p ∈ pre, 0 < p.2 ∧ p.2 ≤ 1)
    (hbelow : ∀ p ∈ pre, -(cB p.2) < cutoff) :
    freqs_to_cBpack (pre ++ ("__total__", c) :: post) cutoff
      = .error .formatMismatch
    ∧ freqs_to_jieba cutoff (pre ++ ("__total__", c) :: post)
      = (pre.filterMap jiebaRender, some .formatMismatch) := by
  constructor
  · rw [freqs_to_cBpack, cBpackLoop_sentinel_error cutoff c post pre [] hns hrange hbelow]
    rfl
  · exact jieba_sentinel_error cutoff c post pre hns
      (fun p hp => (hrange p hp).1) hbelow

theorem C7_format_mismatch_witness :
    (∀ p ∈ ([("a", 1/10)] : List (String × ℚ)), p.1 ≠ "__total__")
    ∧ (∀ p ∈ ([("a", 1/10)] : List (String × ℚ)), 0 < p.2 ∧ p.2 ≤ 1)
    ∧ (∀ p ∈ ([("a", 1/10)] : List (String × ℚ)), -(cB p.2) < 600)
    ∧ (freqs_to_cBpack ([("a", 1/10)] ++ ("__total__", 5) :: []) 600
          = .error .formatMismatch
        ∧ freqs_to_jieba 600 ([("a", 1/10)] ++ ("__total__", 5) :: [])
          = ([("a", 1/10)].filterMap jiebaRender, some .formatMismatch)) :=
  ⟨by intro p hp; fin_cases hp <;> simp,
   by intro p hp; fin_cases hp <;> norm_num,
   by
     intro p hp
     fin_cases hp
     show -(cB (1/10 : ℚ)) < 600
     rw [cB_one_tenth]
     norm_num,
   C7_format_mismatch 600 [("a", 1/10)] [] 5
     (by intro p hp; fin_cases hp <;> simp)
     (by intro p hp; fin_cases hp <;> norm_num)
     (by
       intro p hp
       fin_cases hp
       show -(cB (1/10 : ℚ)) < 600
       rw [cB_one_tenth]
       norm_num)⟩

end ExquisiteCorpus

namespace ExquisiteCorpus

theorem pround_1005 : pround (1005 : ℚ) = 1005 := by
  rw [pround]
  norm_num

/-- C8 counterexample: the Jieba exporter does not use the rounded tier
index of §4.4: the token "x" with frequency 1.005e-6 has rounded tier
index `round(-100*log10 f) = 600`, which is not strictly below the
cutoff 600, yet the exporter emits it (its unrounded centibel value
599.78… is below the cutoff). -/
theorem C8_counterexample :
    freqs_to_jieba 600 [("x", 1005/1000000000)] = ([("x", 1005)], none)
    ∧ -(cB (1005/1000000000 : ℚ)) = 600
    ∧ ¬ (-(cB (1005/1000000000 : ℚ)) < 600) := by
  refine ⟨?_, by rw [cB_1005em9]; norm_num, by rw [cB_1005em9]; norm_num⟩
  rw [freqs_to_jieba]
  rw [if_neg (by decide : ¬ ("x" = "__total__")),
    if_neg (by decide : ¬ (pstrip "x" = "")),
    if_neg (by norm_num : ¬ (1005/1000000000 : ℚ) ≤ 0),
    if_neg (show ¬ jiebaStop (1005/1000000000 : ℚ) 600 from by
      rw [jiebaStop]
      norm_num)]
  rw [show freqs_to_jieba 600 ([] : List (String × ℚ)) = ([], none) from rfl]
  rw [show ((1005/1000000000 : ℚ) * 1000000000) = (1005 : ℚ) by norm_num,
    pround_1005]

/-- C8 (amended): on a sentinel-free list of positive frequencies the
Jieba exporter emits, in input order, exactly the non-whitespace tokens
of the longest prefix in which no non-whitespace token satisfies the
unrounded stop test `freq^100 ≤ 10^(-cutoff)` (i.e.
`-100*log10 freq ≥ cutoff`), each with integer pseudo-count
`round(freq * 1e9)`, and reports no error; a token whose rounded
tier_index equals the cutoff may therefore still be emitted. -/
theorem C8_jieba_unrounded_cutoff (cutoff : ℤ) (lines : List (String × ℚ))
    (hns : ∀ p ∈ lines, p.1 ≠ "__total__")
    (hpos : ∀ p ∈ lines, 0 < p.2) :
    freqs_to_jieba cutoff lines
      = ((lines.takeWhile fun p =>
            decide (pstrip p.1 = "") || decide (¬ jiebaStop p.2 cutoff)).filterMap
          jiebaRender, none) := by
  induction lines with
  | nil => rfl
  | cons p rest ih =>
    obtain ⟨w, f⟩ := p
    have hw : w ≠ "__total__" := hns _ (List.mem_cons_self _ _)
    have hf : 0 < f := hpos _ (List.mem_cons_self _ _)
    have ihr := ih (fun p hp => hns p (List.mem_cons_of_mem _ hp))
      (fun p hp => hpos p (List.mem_cons_of_mem _ hp))
    rw [freqs_to_jieba, if_neg hw, List.takeWhile_cons]
    by_cases ht : pstrip w = ""
    · rw [if_pos ht, ihr]
      have hcond :
          (decide (pstrip w = "") || decide (¬ jiebaStop f cutoff)) = true := by
        simp [ht]
      rw [if_pos hcond, List.filterMap_cons,
        show jiebaRender (w, f) = none from if_pos ht]
    · rw [if_neg ht, if_neg (not_le.mpr hf)]
      by_cases hstop : jiebaStop f cutoff
      · rw [if_pos hstop]
        have hcond :
            (decide (pstrip w = "") || decide (¬ jiebaStop f cutoff)) = false := by
          simp [ht, hstop]
        rw [hcond]
        simp
      · rw [if_neg hstop, ihr]
        have hcond :
            (decide (pstrip w = "") || decide (¬ jiebaStop f cutoff)) = true := by
          simp [ht, hstop]
        rw [if_pos hcond, List.filterMap_cons,
          show jiebaRender (w, f) = some (w, pround (f * 1000000000))
            from if_neg ht]

theorem C8_jieba_unrounded_cutoff_witness :
    (∀ p ∈ ([("a", 1/10)] : List (String × ℚ)), p.1 ≠ "__total__")
    ∧ (∀ p ∈ ([("a", 1/10)] : List (String × ℚ)), 0 < p.2)
    ∧ freqs_to_jieba 600 [("a", 1/10)]
        = ((([("a", 1/10)] : List (String × ℚ)).takeWhile fun p =>
              decide (pstrip p.1 = "") || decide (¬ jiebaStop p.2 600)).filterMap
            jiebaRender, none) :=
  ⟨by intro p hp; fin_cases hp <;> simp,
   by intro p hp; fin_cases hp <;> norm_num,
   C8_jieba_unrounded_cutoff 600 [("a", 1/10)]
     (by intro p hp; fin_cases hp <;> simp)
     (by intro p hp; fin_cases hp <;> norm_num)⟩

end ExquisiteCorpus
